import Mathlib

/-!
Shallow embedding of `src/phonemizer/punctuation.py` (the `Punctuation`
class): punctuation preservation, restoration and removal.  Python strings
are modelled as `List Char`; the whitespace class of the regex `\s` and of
`str.strip` is modelled by `Char.isWhitespace`, and the digit class `\d` by
`Char.isDigit`.
-/

namespace Phonemizer

/-- A Python string literal as a list of characters. -/
def strL (s : String) : List Char := s.data

/-- Position tag of a preserved punctuation mark; the code uses the strings
"B", "E", "I" and "A". -/
inductive Pos where
  | B | E | I | A
deriving DecidableEq

/-- `_MarkIndex = collections.namedtuple("_mark_index", ["index", "mark", "position"])`. -/
structure MarkIndex where
  index : Nat
  mark : List Char
  position : Pos
deriving DecidableEq

/-- Membership in the configured mark string. -/
def markChar (marks : List Char) (c : Char) : Bool := marks.contains c

/-- A character the mark regular expression `(\s*[marks]+\s*)+` can consume:
whitespace or a configured mark. -/
def runChar (marks : List Char) (c : Char) : Bool := c.isWhitespace || markChar marks c

/-- A maximal `runChar` block is a regex match exactly when it holds at least
one mark character. -/
def emitRun (marks : List Char) (run : List Char) : List (List Char) :=
  if run ≠ [] ∧ run.any (markChar marks) then [run] else []

/-- Scanner for `re.finditer(self._marks_re, line)`: `run` accumulates the
current maximal whitespace-and-mark block, emitted when it contains a mark.
Leftmost greedy matching of `(\s*[marks]+\s*)+` returns exactly the maximal
whitespace/mark blocks containing at least one mark character, in order. -/
def detectGo (marks : List Char) : List Char → List Char → List (List Char)
  | run, [] => emitRun marks run
  | run, c :: cs =>
    if runChar marks c then detectGo marks (run ++ [c]) cs
    else emitRun marks run ++ detectGo marks [] cs

/-- The list of match texts of `_marks_re` in a line, in order. -/
def detect (marks : List Char) (line : List Char) : List (List Char) :=
  detectGo marks [] line

/-- `re.sub(r"\d[,]\d", lambda x: x[0][0] + "§" + x[0][2], line)`: every
non-overlapping digit-comma-digit triple, scanned left to right, gets its
comma replaced by '§'; scanning resumes after a replaced triple. -/
def escapeComma : List Char → List Char
  | a :: b :: c :: rest =>
    if a.isDigit && b = ',' && c.isDigit then a :: '§' :: c :: escapeComma rest
    else a :: escapeComma (b :: c :: rest)
  | l => l

/-- `re.sub(r"\d[\.]\d", lambda x: x[0][0] + "#" + x[0][2], line)`. -/
def escapeDot : List Char → List Char
  | a :: b :: c :: rest =>
    if a.isDigit && b = '.' && c.isDigit then a :: '#' :: c :: escapeDot rest
    else a :: escapeDot (b :: c :: rest)
  | l => l

/-- The two digit-protection substitutions in the order `_preserve_line`
applies them (comma first, then dot). -/
def escapeLine (line : List Char) : List Char := escapeDot (escapeComma line)

/-- `re.sub(r"§", ",", element)` — a characterwise substitution. -/
def unescSection (l : List Char) : List Char := l.map fun c => if c = '§' then ',' else c

/-- `re.sub(r"#", ".", element)`. -/
def unescHash (l : List Char) : List Char := l.map fun c => if c = '#' then '.' else c

/-- The unescape `_preserve_line` applies to every element it returns ('§'
first, then '#', as in the code). -/
def unescape (l : List Char) : List Char := unescHash (unescSection l)

/-- `l.startswith(p)`: `startsWithL p l` holds when `p` is an initial segment
of `l`. -/
def startsWithL : List Char → List Char → Bool
  | [], _ => true
  | _ :: _, [] => false
  | a :: as, b :: bs => a = b && startsWithL as bs

/-- `l.endswith(p)`. -/
def endsWithL (p l : List Char) : Bool := startsWithL p.reverse l.reverse

/-- The position tag `_preserve_line` computes for the `i`-th of `total`
matches: "B" for the first match when the line starts with its text, else
"E" for the last match when the line ends with its text, else "I". -/
def markPosition (line : List Char) (total i : Nat) (g : List Char) : Pos :=
  if i = 0 ∧ startsWithL g line then .B
  else if i = total - 1 ∧ endsWithL g line then .E
  else .I

/-- The classification loop of `_preserve_line` (lines 120-129): one
`_MarkIndex` per match, in order; the counter starts at the given index. -/
def classifyMarks (line : List Char) (num total : Nat) : Nat → List (List Char) → List MarkIndex
  | _, [] => []
  | i, g :: gs => ⟨num, g, markPosition line total i g⟩ :: classifyMarks line num total (i + 1) gs

/-- `split = line.split(sep); (split[0], sep.join(split[1:]))` for a
non-empty separator: the text before the first occurrence of `sep` paired
with the text after it, and `(line, [])` when `sep` does not occur. -/
def splitFirst (sep : List Char) : List Char → List Char × List Char
  | [] => ([], [])
  | c :: cs =>
    if startsWithL sep (c :: cs) then ([], (c :: cs).drop sep.length)
    else
      let (pre, suf) := splitFirst sep cs
      (c :: pre, suf)

/-- The splitting loop of `_preserve_line` (lines 132-137): peel off the text
before each mark in turn; returns the collected parts and the remaining
line. -/
def splitLoop : List Char → List MarkIndex → List (List Char) × List Char
  | line, [] => ([], line)
  | line, m :: ms =>
    let (pre, suf) := splitFirst m.mark line
    let (parts, fin) := splitLoop suf ms
    (pre :: parts, fin)

/-- `Punctuation._preserve_line`.  (The stray debug `print` on line 106 does
not affect the returned value and is not modelled.) -/
def preserveLine (marks : List Char) (line : List Char) (num : Nat) :
    List (List Char) × List MarkIndex :=
  let line := escapeLine line
  match detect marks line with
  | [] => ([unescape line], [])
  | g :: gs =>
    if g :: gs = [line] then ([], [⟨num, line, Pos.A⟩])
    else
      let mks := classifyMarks line num (g :: gs).length 0 (g :: gs)
      let (parts, fin) := splitLoop line mks
      ((parts ++ [fin]).map unescape, mks)

/-- The enumeration loop of `Punctuation.preserve` (lines 98-101). -/
def preserveAux (marks : List Char) : List (List Char) → Nat → List (List Char) × List MarkIndex
  | [], _ => ([], [])
  | l :: ls, num =>
    let (cs, ms) := preserveLine marks l num
    let (cs2, ms2) := preserveAux marks ls (num + 1)
    (cs ++ cs2, ms ++ ms2)

/-- `Punctuation.preserve` on a list of lines (`str2list` from
`phonemizer.utils` turns a single string into a one-element list, so list
input covers both call shapes); empty chunks are filtered out at the end. -/
def preserve (marks : List Char) (text : List (List Char)) :
    List (List Char) × List MarkIndex :=
  ((preserveAux marks text 0).1.filter (fun l => !l.isEmpty), (preserveAux marks text 0).2)

/-- `text.rstrip()`: remove trailing whitespace. -/
def rstripL : List Char → List Char
  | [] => []
  | c :: cs =>
    match rstripL cs with
    | [] => if c.isWhitespace then [] else [c]
    | r => c :: r

/-- The left half of `text.strip()`. -/
def lstripL (l : List Char) : List Char := l.dropWhile Char.isWhitespace

/-- `text.strip()`. -/
def stripL (l : List Char) : List Char := rstripL (lstripL l)

/-- Replacement of one maximal whitespace/mark block under
`re.sub(self._marks_re, " ", text)`: a block containing a mark becomes one
space, any other block is kept verbatim. -/
def flushRun (marks : List Char) (run : List Char) : List Char :=
  if run = [] then [] else if run.any (markChar marks) then [' '] else run

/-- Scanner for `re.sub(self._marks_re, " ", text)`, mirroring `detectGo`. -/
def subGo (marks : List Char) : List Char → List Char → List Char
  | run, [] => flushRun marks run
  | run, c :: cs =>
    if runChar marks c then subGo marks (run ++ [c]) cs
    else flushRun marks run ++ c :: subGo marks [] cs

/-- `re.sub(self._marks_re, " ", text)`. -/
def subMarks (marks : List Char) (l : List Char) : List Char := subGo marks [] l

/-- The inner `aux` of `Punctuation.remove` on one line. -/
def removeLine (marks : List Char) (l : List Char) : List Char := stripL (subMarks marks l)

/-- `Punctuation.remove` on a list of lines. -/
def removeList (marks : List Char) (text : List (List Char)) : List (List Char) :=
  text.map (removeLine marks)

mutual

/-- `Punctuation._restore_current`: `marks` is the full pending list, whose
head is `cur`, and the recursive calls use `marks[1:]`; the chunk at the
front of `text` is right-stripped before the position branch.  The `text = []`
and `marks = []` fallbacks never arise from `_restore_aux`. -/
def restoreCurrent (cur : MarkIndex) (text : List (List Char))
    (marks : List MarkIndex) (num : Nat) : List (List Char) :=
  match text, marks with
  | [], _ => []
  | _, [] => []
  | t :: ts, _ :: rest =>
    let t0 := rstripL t
    if cur.position = .B then restoreAux ((cur.mark ++ t0) :: ts) rest num
    else if cur.position = .E then (t0 ++ cur.mark) :: restoreAux ts rest (num + 1)
    else if cur.position = .A then cur.mark :: restoreAux (t0 :: ts) rest (num + 1)
    else
      match ts with
      | [] => restoreAux [t0 ++ cur.mark] rest num
      | t1 :: ts2 => restoreAux ((t0 ++ cur.mark ++ t1) :: ts2) rest num
termination_by (marks.length, text.length, 0)

/-- `Punctuation._restore_aux`. -/
def restoreAux (text : List (List Char)) (marks : List MarkIndex) (num : Nat) :
    List (List Char) :=
  match marks with
  | [] => text
  | m :: rest =>
    match text with
    | [] => [((m :: rest).map (fun x => x.mark)).flatten]
    | t :: ts =>
      if m.index = num then restoreCurrent m (t :: ts) (m :: rest) num
      else t :: restoreAux ts (m :: rest) (num + 1)
termination_by (marks.length, text.length, 1)

end

/-- `Punctuation.restore` (a class method): `str2list` then `_restore_aux`
starting at line counter 0. -/
def restore (text : List (List Char)) (marks : List MarkIndex) : List (List Char) :=
  restoreAux text marks 0

/-- The head of `l` cannot extend a whitespace/mark block. -/
def headNR (marks : List Char) : List Char → Prop
  | [] => True
  | c :: _ => runChar marks c = false

/-- Shape of the output of `re.sub(self._marks_re, " ", text)`: blocks that
are single characters outside the whitespace/mark class, single inserted
spaces, or kept mark-free whitespace/mark blocks, where each block of the
latter two kinds is maximal (followed by a non-block character or the end). -/
inductive SubOut (marks : List Char) : List Char → Prop
  | nil : SubOut marks []
  | nonrun (c : Char) (l : List Char) : runChar marks c = false → SubOut marks l →
      SubOut marks (c :: l)
  | space (l : List Char) : headNR marks l → SubOut marks l → SubOut marks (' ' :: l)
  | keep (r l : List Char) : r ≠ [] → (∀ c ∈ r, runChar marks c = true) →
      (∀ c ∈ r, markChar marks c = false) → headNR marks l → SubOut marks l →
      SubOut marks (r ++ l)

/-- `_DEFAULT_MARKS = ';:,.!?¡¿—…"«»“”'`. -/
def defaultMarks : List Char := strL ";:,.!?¡¿—…\"«»“”"

/-- A Python value handed to the `marks` setter: either a string or some
non-string value. -/
inductive PyValue where
  | str (s : List Char)
  | nonStr
deriving DecidableEq

/-- The configuration failure (`ValueError` in the code, named
`InvalidConfiguration` by the specification). -/
inductive ConfigError where
  | invalidConfiguration
deriving DecidableEq

/-- The `marks` setter (lines 60-68): rejects every non-string value, else
stores `"".join(set(value))` — duplicates collapsed; Python's set order is
unspecified and `eraseDups` keeps first occurrences, which agrees on
membership. -/
def setMarks : PyValue → Except ConfigError (List Char)
  | .str s => .ok s.eraseDups
  | .nonStr => .error .invalidConfiguration

end Phonemizer

namespace Phonemizer

theorem startsWithL_iff (p : List Char) : ∀ l : List Char,
    startsWithL p l = true ↔ ∃ t, l = p ++ t := by
  induction p with
  | nil => intro l; simp [startsWithL]
  | cons a as ih =>
    intro l
    cases l with
    | nil =>
      simp [startsWithL]
    | cons b bs =>
      simp only [startsWithL, Bool.and_eq_true, decide_eq_true_eq, ih bs, List.cons_append,
        List.cons.injEq]
      constructor
      · rintro ⟨rfl, t, rfl⟩; exact ⟨t, rfl, rfl⟩
      · rintro ⟨t, rfl, rfl⟩; exact ⟨rfl, t, rfl⟩

theorem endsWithL_iff (p l : List Char) : endsWithL p l = true ↔ ∃ u, l = u ++ p := by
  rw [endsWithL, startsWithL_iff]
  constructor
  · rintro ⟨t, ht⟩
    refine ⟨t.reverse, ?_⟩
    have h := congrArg List.reverse ht
    simpa using h
  · rintro ⟨u, rfl⟩
    exact ⟨u.reverse, by simp⟩

theorem runChar_of_markChar {marks : List Char} {c : Char} (h : markChar marks c = true) :
    runChar marks c = true := by simp [runChar, h]

theorem markChar_eq_false_of_runChar {marks : List Char} {c : Char}
    (h : runChar marks c = false) : markChar marks c = false := by
  by_cases hm : markChar marks c = true
  · rw [runChar_of_markChar hm] at h; cases h
  · simpa using hm

theorem emitRun_eq_nil_iff {marks run : List Char} :
    emitRun marks run = [] ↔ run = [] ∨ run.any (markChar marks) = false := by
  rw [emitRun]
  split
  · rename_i h
    simp [h.1, h.2]
  · rename_i h
    simp only [ne_eq, not_and, Bool.not_eq_true] at h
    by_cases hr : run = []
    · simp [hr]
    · simp [h hr, hr]

theorem mem_emitRun_iff {marks run g : List Char} :
    g ∈ emitRun marks run ↔ g = run ∧ run ≠ [] ∧ run.any (markChar marks) = true := by
  rw [emitRun]
  split
  · rename_i h
    simp only [List.mem_singleton]
    exact ⟨fun hg => ⟨hg, h.1, h.2⟩, fun hg => hg.1⟩
  · rename_i h
    simp only [List.not_mem_nil, false_iff]
    rintro ⟨rfl, h1, h2⟩
    exact h ⟨h1, h2⟩

theorem detectGo_append_run {marks : List Char} (r : List Char) :
    ∀ (rest run : List Char), (∀ c ∈ r, runChar marks c = true) →
    detectGo marks run (r ++ rest) = detectGo marks (run ++ r) rest := by
  induction r with
  | nil => intro rest run _; simp
  | cons c r' ih =>
    intro rest run hr
    have hc : runChar marks c = true := hr c (by simp)
    show detectGo marks run (c :: (r' ++ rest)) = _
    rw [detectGo, if_pos hc, ih rest (run ++ [c]) (fun x hx => hr x (by simp [hx]))]
    simp

theorem detectGo_spec {marks : List Char} : ∀ (t run : List Char),
    detectGo marks run t =
      emitRun marks (run ++ t.takeWhile (runChar marks)) ++
        (match t.dropWhile (runChar marks) with
         | [] => []
         | _ :: cs => detectGo marks [] cs) := by
  intro t
  induction t with
  | nil => intro run; simp [detectGo]
  | cons c cs ih =>
    intro run
    by_cases hc : runChar marks c = true
    · rw [detectGo, if_pos hc, ih (run ++ [c]), List.takeWhile_cons, List.dropWhile_cons,
        if_pos hc, if_pos hc]
      simp
    · have hc' : runChar marks c = false := by simpa using hc
      rw [detectGo, if_neg (by simp [hc']), List.takeWhile_cons, List.dropWhile_cons,
        if_neg (by simp [hc']), if_neg (by simp [hc'])]
      simp

theorem detectGo_eq_nil {marks : List Char} : ∀ (l run : List Char),
    detectGo marks run l = [] →
      (∀ c ∈ run, markChar marks c = false) ∧ (∀ c ∈ l, markChar marks c = false) := by
  intro l
  induction l with
  | nil =>
    intro run h
    rw [detectGo, emitRun_eq_nil_iff] at h
    refine ⟨?_, by simp⟩
    rcases h with h | h
    · simp [h]
    · intro c hc
      by_cases hm : markChar marks c = true
      · rw [List.any_eq_false] at h
        have := h c hc
        simp [hm] at this
      · simpa using hm
  | cons c cs ih =>
    intro run h
    by_cases hc : runChar marks c = true
    · rw [detectGo, if_pos hc] at h
      obtain ⟨h1, h2⟩ := ih (run ++ [c]) h
      refine ⟨fun x hx => h1 x (by simp [hx]), ?_⟩
      intro x hx
      rcases List.mem_cons.mp hx with rfl | hx
      · exact h1 x (by simp)
      · exact h2 x hx
    · have hc' : runChar marks c = false := by simpa using hc
      rw [detectGo, if_neg (by simp [hc']), List.append_eq_nil] at h
      obtain ⟨h1, h2⟩ := h
      obtain ⟨h3, h4⟩ := ih [] h2
      rw [emitRun_eq_nil_iff] at h1
      refine ⟨?_, ?_⟩
      · intro x hx
        rcases h1 with h1 | h1
        · simp [h1] at hx
        · rw [List.any_eq_false] at h1
          have := h1 x hx
          simpa using this
      · intro x hx
        rcases List.mem_cons.mp hx with rfl | hx
        · exact markChar_eq_false_of_runChar hc'
        · exact h4 x hx

theorem detectGo_eq_nil_of_mark_free {marks : List Char} : ∀ (l run : List Char),
    (∀ c ∈ run, markChar marks c = false) → (∀ c ∈ l, markChar marks c = false) →
    detectGo marks run l = [] := by
  intro l
  induction l with
  | nil =>
    intro run h1 _
    rw [detectGo, emitRun_eq_nil_iff]
    right
    rw [List.any_eq_false]
    intro c hc
    simp [h1 c hc]
  | cons c cs ih =>
    intro run h1 h2
    by_cases hc : runChar marks c = true
    · rw [detectGo, if_pos hc]
      refine ih (run ++ [c]) ?_ (fun x hx => h2 x (by simp [hx]))
      intro x hx
      rcases List.mem_append.mp hx with hx | hx
      · exact h1 x hx
      · simp only [List.mem_singleton] at hx
        subst hx
        exact h2 x (by simp)
    · have hc' : runChar marks c = false := by simpa using hc
      rw [detectGo, if_neg (by simp [hc'])]
      rw [List.append_eq_nil]
      constructor
      · rw [emitRun_eq_nil_iff]
        right
        rw [List.any_eq_false]
        intro x hx
        simp [h1 x hx]
      · exact ih [] (by simp) (fun x hx => h2 x (by simp [hx]))

theorem detect_eq_nil_iff {marks l : List Char} :
    detect marks l = [] ↔ ∀ c ∈ l, markChar marks c = false := by
  constructor
  · intro h
    exact (detectGo_eq_nil l [] h).2
  · intro h
    exact detectGo_eq_nil_of_mark_free l [] (by simp) h

end Phonemizer

namespace Phonemizer

theorem escapeComma_eq_or_mem : ∀ l : List Char, escapeComma l = l ∨ '§' ∈ escapeComma l := by
  intro l
  induction l using escapeComma.induct with
  | case1 a b c rest h ih =>
    rw [escapeComma, if_pos h]
    right; simp
  | case2 a b c rest h ih =>
    rw [escapeComma, if_neg h]
    rcases ih with ih | ih
    · left; rw [ih]
    · right; simp [ih]
  | case3 l h =>
    left
    cases l with
    | nil => rfl
    | cons a l' =>
      cases l' with
      | nil => rfl
      | cons b l'' =>
        cases l'' with
        | nil => rfl
        | cons c rest => exact absurd rfl (h a b c rest)

theorem escapeDot_eq_or_mem : ∀ l : List Char, escapeDot l = l ∨ '#' ∈ escapeDot l := by
  intro l
  induction l using escapeDot.induct with
  | case1 a b c rest h ih =>
    rw [escapeDot, if_pos h]
    right; simp
  | case2 a b c rest h ih =>
    rw [escapeDot, if_neg h]
    rcases ih with ih | ih
    · left; rw [ih]
    · right; simp [ih]
  | case3 l h =>
    left
    cases l with
    | nil => rfl
    | cons a l' =>
      cases l' with
      | nil => rfl
      | cons b l'' =>
        cases l'' with
        | nil => rfl
        | cons c rest => exact absurd rfl (h a b c rest)

theorem mem_escapeComma : ∀ (l : List Char) (x : Char), x ∈ escapeComma l → x ∈ l ∨ x = '§' := by
  intro l
  induction l using escapeComma.induct with
  | case1 a b c rest h ih =>
    intro x hx
    rw [escapeComma, if_pos h] at hx
    simp only [List.mem_cons] at hx
    rcases hx with rfl | rfl | rfl | hx
    · left; simp
    · right; rfl
    · left; simp
    · rcases ih x hx with hx | hx
      · left; simp [hx]
      · right; exact hx
  | case2 a b c rest h ih =>
    intro x hx
    rw [escapeComma, if_neg h] at hx
    simp only [List.mem_cons] at hx
    rcases hx with rfl | hx
    · left; simp
    · rcases ih x hx with hx | hx
      · left; simp only [List.mem_cons] at hx ⊢; tauto
      · right; exact hx
  | case3 l h =>
    intro x hx
    left
    cases l with
    | nil => exact hx
    | cons a l' =>
      cases l' with
      | nil => exact hx
      | cons b l'' =>
        cases l'' with
        | nil => exact hx
        | cons c rest => exact absurd rfl (h a b c rest)

theorem mem_escapeDot : ∀ (l : List Char) (x : Char), x ∈ escapeDot l → x ∈ l ∨ x = '#' := by
  intro l
  induction l using escapeDot.induct with
  | case1 a b c rest h ih =>
    intro x hx
    rw [escapeDot, if_pos h] at hx
    simp only [List.mem_cons] at hx
    rcases hx with rfl | rfl | rfl | hx
    · left; simp
    · right; rfl
    · left; simp
    · rcases ih x hx with hx | hx
      · left; simp [hx]
      · right; exact hx
  | case2 a b c rest h ih =>
    intro x hx
    rw [escapeDot, if_neg h] at hx
    simp only [List.mem_cons] at hx
    rcases hx with rfl | hx
    · left; simp
    · rcases ih x hx with hx | hx
      · left; simp only [List.mem_cons] at hx ⊢; tauto
      · right; exact hx
  | case3 l h =>
    intro x hx
    left
    cases l with
    | nil => exact hx
    | cons a l' =>
      cases l' with
      | nil => exact hx
      | cons b l'' =>
        cases l'' with
        | nil => exact hx
        | cons c rest => exact absurd rfl (h a b c rest)

theorem sect_mem_escapeDot : ∀ l : List Char, '§' ∈ l → '§' ∈ escapeDot l := by
  intro l
  induction l using escapeDot.induct with
  | case1 a b c rest h ih =>
    intro hx
    have hb : b = '.' := by
      simp only [Bool.and_eq_true, decide_eq_true_eq] at h
      exact h.1.2
    rw [escapeDot, if_pos h]
    simp only [List.mem_cons] at hx
    rcases hx with rfl | hx | rfl | hx
    · simp
    · rw [hb] at hx; cases hx
    · simp
    · simp [ih hx]
  | case2 a b c rest h ih =>
    intro hx
    rw [escapeDot, if_neg h]
    rcases List.mem_cons.mp hx with heq | hx
    · cases heq; simp
    · exact List.mem_cons_of_mem a (ih hx)
  | case3 l h =>
    intro hx
    cases l with
    | nil => exact hx
    | cons a l' =>
      cases l' with
      | nil => exact hx
      | cons b l'' =>
        cases l'' with
        | nil => exact hx
        | cons c rest => exact absurd rfl (h a b c rest)

theorem unescSection_eq_self {l : List Char} (h : '§' ∉ l) : unescSection l = l := by
  rw [unescSection]
  conv_rhs => rw [← List.map_id l]
  apply List.map_congr_left
  intro c hc
  have : c ≠ '§' := fun hcc => h (hcc ▸ hc)
  simp [this]

theorem unescHash_eq_self {l : List Char} (h : '#' ∉ l) : unescHash l = l := by
  rw [unescHash]
  conv_rhs => rw [← List.map_id l]
  apply List.map_congr_left
  intro c hc
  have : c ≠ '#' := fun hcc => h (hcc ▸ hc)
  simp [this]

theorem unescSection_escapeComma : ∀ l : List Char, '§' ∉ l →
    unescSection (escapeComma l) = l := by
  intro l
  induction l using escapeComma.induct with
  | case1 a b c rest h ih =>
    intro hl
    obtain ⟨⟨hda, hcomma⟩, hdc⟩ : (a.isDigit = true ∧ b = ',') ∧ c.isDigit = true := by
      simpa [Bool.and_eq_true, decide_eq_true_eq] using h
    have ha : a ≠ '§' := by
      intro hEq; rw [hEq] at hda; simp [Char.isDigit] at hda
    have hc : c ≠ '§' := by
      intro hEq; rw [hEq] at hdc; simp [Char.isDigit] at hdc
    have hrest : unescSection (escapeComma rest) = rest := ih (fun hx => hl (by simp [hx]))
    rw [escapeComma, if_pos h, unescSection]
    rw [unescSection] at hrest
    simp only [List.map_cons, hrest, if_neg ha, if_neg hc]
    simp [hcomma]
  | case2 a b c rest h ih =>
    intro hl
    have ha : a ≠ '§' := by
      intro hEq; exact hl (by simp [hEq])
    have hrest : unescSection (escapeComma (b :: c :: rest)) = b :: c :: rest :=
      ih (fun hx => hl (by simp only [List.mem_cons] at hx ⊢; tauto))
    rw [escapeComma, if_neg h, unescSection]
    rw [unescSection] at hrest
    simp only [List.map_cons] at hrest ⊢
    rw [if_neg ha]
    rw [hrest]
  | case3 l h =>
    intro hl
    have hid : escapeComma l = l := by
      cases l with
      | nil => rfl
      | cons a l' =>
        cases l' with
        | nil => rfl
        | cons b l'' =>
          cases l'' with
          | nil => rfl
          | cons c rest => exact absurd rfl (h a b c rest)
    rw [hid]
    exact unescSection_eq_self hl

theorem unescHash_escapeDot : ∀ l : List Char, '#' ∉ l →
    unescHash (escapeDot l) = l := by
  intro l
  induction l using escapeDot.induct with
  | case1 a b c rest h ih =>
    intro hl
    obtain ⟨⟨hda, hdot⟩, hdc⟩ : (a.isDigit = true ∧ b = '.') ∧ c.isDigit = true := by
      simpa [Bool.and_eq_true, decide_eq_true_eq] using h
    have ha : a ≠ '#' := by
      intro hEq; rw [hEq] at hda; simp [Char.isDigit] at hda
    have hc : c ≠ '#' := by
      intro hEq; rw [hEq] at hdc; simp [Char.isDigit] at hdc
    have hrest : unescHash (escapeDot rest) = rest := ih (fun hx => hl (by simp [hx]))
    rw [escapeDot, if_pos h, unescHash]
    rw [unescHash] at hrest
    simp only [List.map_cons, hrest, if_neg ha, if_neg hc]
    simp [hdot]
  | case2 a b c rest h ih =>
    intro hl
    have ha : a ≠ '#' := by
      intro hEq; exact hl (by simp [hEq])
    have hrest : unescHash (escapeDot (b :: c :: rest)) = b :: c :: rest :=
      ih (fun hx => hl (by simp only [List.mem_cons] at hx ⊢; tauto))
    rw [escapeDot, if_neg h, unescHash]
    rw [unescHash] at hrest
    simp only [List.map_cons] at hrest ⊢
    rw [if_neg ha]
    rw [hrest]
  | case3 l h =>
    intro hl
    have hid : escapeDot l = l := by
      cases l with
      | nil => rfl
      | cons a l' =>
        cases l' with
        | nil => rfl
        | cons b l'' =>
          cases l'' with
          | nil => rfl
          | cons c rest => exact absurd rfl (h a b c rest)
    rw [hid]
    exact unescHash_eq_self hl

theorem unescHash_unescSection (l : List Char) :
    unescHash (unescSection l) = unescSection (unescHash l) := by
  simp only [unescHash, unescSection, List.map_map]
  apply List.map_congr_left
  intro c _
  by_cases h1 : c = '§'
  · simp [Function.comp, h1]
  · by_cases h2 : c = '#'
    · simp [Function.comp, h2]
    · simp [Function.comp, h1, h2]

theorem unescape_escapeLine {l : List Char} (h1 : '§' ∉ l) (h2 : '#' ∉ l) :
    unescape (escapeLine l) = l := by
  have hcs : '#' ∉ escapeComma l := by
    intro hx
    rcases mem_escapeComma l '#' hx with hx | hx
    · exact h2 hx
    · cases hx
  rw [unescape, escapeLine, unescHash_unescSection, unescHash_escapeDot _ hcs,
    unescSection_escapeComma _ h1]

theorem escapeLine_eq_self_of_runChar {marks l : List Char}
    (hrun : ∀ c ∈ escapeLine l, runChar marks c = true)
    (hs : markChar marks '§' = false) (hh : markChar marks '#' = false) :
    escapeLine l = l := by
  rcases escapeDot_eq_or_mem (escapeComma l) with h | h
  · rcases escapeComma_eq_or_mem l with h2 | h2
    · rw [escapeLine, h, h2]
    · exfalso
      have hmem : '§' ∈ escapeLine l := sect_mem_escapeDot _ h2
      have := hrun '§' hmem
      rw [runChar, hs] at this
      simp [Char.isWhitespace] at this
  · exfalso
    have hmem : '#' ∈ escapeLine l := h
    have := hrun '#' hmem
    rw [runChar, hh] at this
    simp [Char.isWhitespace] at this

end Phonemizer

namespace Phonemizer

theorem mem_detectGo {marks : List Char} : ∀ (l run g : List Char),
    (∀ c ∈ run, runChar marks c = true) → g ∈ detectGo marks run l →
    g ≠ [] ∧ (∀ c ∈ g, runChar marks c = true) ∧ g.any (markChar marks) = true := by
  intro l
  induction l with
  | nil =>
    intro run g hrun hg
    rw [detectGo] at hg
    obtain ⟨rfl, h1, h2⟩ := mem_emitRun_iff.mp hg
    exact ⟨h1, hrun, h2⟩
  | cons c cs ih =>
    intro run g hrun hg
    by_cases hc : runChar marks c = true
    · rw [detectGo, if_pos hc] at hg
      refine ih (run ++ [c]) g ?_ hg
      intro x hx
      rcases List.mem_append.mp hx with hx | hx
      · exact hrun x hx
      · simp only [List.mem_singleton] at hx
        subst hx
        exact hc
    · have hc' : runChar marks c = false := by simpa using hc
      rw [detectGo, if_neg (by simp [hc'])] at hg
      rcases List.mem_append.mp hg with hg | hg
      · obtain ⟨rfl, h1, h2⟩ := mem_emitRun_iff.mp hg
        exact ⟨h1, hrun, h2⟩
      · exact ih [] g (by simp) hg

theorem mem_detect {marks l g : List Char} (hg : g ∈ detect marks l) :
    g ≠ [] ∧ (∀ c ∈ g, runChar marks c = true) ∧ g.any (markChar marks) = true :=
  mem_detectGo l [] g (by simp) hg

theorem takeWhile_eq_nil_dropWhile {p : Char → Bool} {t : List Char}
    (h : t.takeWhile p = []) : t.dropWhile p = t := by
  cases t with
  | nil => rfl
  | cons c cs =>
    rw [List.takeWhile_cons] at h
    by_cases hc : p c = true
    · rw [if_pos hc] at h; cases h
    · rw [List.dropWhile_cons, if_neg hc]

theorem head_not_run_of_takeWhile_nil {marks : List Char} {d : Char} {t : List Char}
    (h : (d :: t).takeWhile (runChar marks) = []) : runChar marks d = false := by
  rw [List.takeWhile_cons] at h
  by_cases hd : runChar marks d = true
  · rw [if_pos hd] at h; cases h
  · simpa using hd

/-- When `detect` returns a single match that is both an initial and a final
segment of the line, that match is the whole line: a match is a maximal
whitespace/mark block, so the remainder would have to start with a character
outside the block class and at the same time lie inside the match. -/
theorem detect_singleton_eq {marks g t u : List Char}
    (hdet : detect marks (g ++ t) = [g]) (hsuf : g ++ t = u ++ g) : t = [] := by
  obtain ⟨hgne, hgrun, hgmark⟩ := @mem_detect marks (g ++ t) g (by rw [hdet]; simp)
  have h1 : detect marks (g ++ t) = detectGo marks g t := by
    rw [detect, detectGo_append_run g t [] hgrun]
    simp
  rw [h1, detectGo_spec] at hdet
  have hne : g ++ t.takeWhile (runChar marks) ≠ [] := by
    simp [hgne]
  have hany : (g ++ t.takeWhile (runChar marks)).any (markChar marks) = true := by
    rw [List.any_append, hgmark]
    simp
  rw [emitRun, if_pos ⟨hne, hany⟩] at hdet
  simp only [List.cons_append, List.nil_append] at hdet
  have hT : t.takeWhile (runChar marks) = [] ∧
      (match t.dropWhile (runChar marks) with
       | [] => ([] : List (List Char))
       | _ :: cs => detectGo marks [] cs) = [] := by
    rw [List.cons.injEq] at hdet
    obtain ⟨hdet1, hdet2⟩ := hdet
    constructor
    · have : g ++ t.takeWhile (runChar marks) = g ++ [] := by simpa using hdet1
      exact List.append_cancel_left this
    · exact hdet2
  obtain ⟨hT1, hT2⟩ := hT
  rw [takeWhile_eq_nil_dropWhile hT1] at hT2
  cases t with
  | nil => rfl
  | cons d t' =>
    exfalso
    have hd : runChar marks d = false := head_not_run_of_takeWhile_nil hT1
    have ht' : ∀ c ∈ t', markChar marks c = false := by
      have := detectGo_eq_nil t' [] hT2
      exact this.2
    obtain ⟨ch, hch, hchm⟩ := List.any_eq_true.mp hgmark
    rcases List.append_eq_append_iff.mp hsuf with ⟨w, hw1, hw2⟩ | ⟨w, hw1, hw2⟩
    · -- d :: t' = w ++ g : the mark character of g lies in d :: t'
      have hcht : ch ∈ d :: t' := by
        rw [hw2]
        exact List.mem_append_right w hch
      rcases List.mem_cons.mp hcht with heq | hcht
      · subst heq
        rw [runChar_of_markChar hchm] at hd
        cases hd
      · rw [ht' ch hcht] at hchm
        cases hchm
    · -- g = w ++ (d :: t') : d lies in g, yet is not a block character
      have hdg : d ∈ g := by
        rw [hw2]
        simp
      rw [hgrun d hdg] at hd
      cases hd

end Phonemizer

namespace Phonemizer

theorem classifyMarks_getElem (line : List Char) (num total : Nat) :
    ∀ (gs : List (List Char)) (i0 j : Nat),
      (classifyMarks line num total i0 gs)[j]? =
        (gs[j]?).map fun g => (⟨num, g, markPosition line total (i0 + j) g⟩ : MarkIndex) := by
  intro gs
  induction gs with
  | nil => intro i0 j; simp [classifyMarks]
  | cons g gs ih =>
    intro i0 j
    cases j with
    | zero => simp [classifyMarks]
    | succ j =>
      rw [classifyMarks]
      simp only [List.getElem?_cons_succ]
      rw [ih (i0 + 1) j]
      have : i0 + 1 + j = i0 + (j + 1) := by omega
      rw [this]

theorem restoreAux_nil_marks (text : List (List Char)) (num : Nat) :
    restoreAux text [] num = text := by
  simp [restoreAux]

theorem restoreAux_nil_text (m : MarkIndex) (ms : List MarkIndex) (num : Nat) :
    restoreAux [] (m :: ms) num = [((m :: ms).map (fun x => x.mark)).flatten] := by
  simp [restoreAux]

theorem restoreAux_cons (t : List Char) (ts : List (List Char)) (m : MarkIndex)
    (ms : List MarkIndex) (num : Nat) :
    restoreAux (t :: ts) (m :: ms) num =
      if m.index = num then restoreCurrent m (t :: ts) (m :: ms) num
      else t :: restoreAux ts (m :: ms) (num + 1) := by
  rw [restoreAux]

theorem restoreCurrent_B (i : Nat) (mk t : List Char) (ts : List (List Char))
    (m : MarkIndex) (rest : List MarkIndex) (num : Nat) :
    restoreCurrent ⟨i, mk, Pos.B⟩ (t :: ts) (m :: rest) num =
      restoreAux ((mk ++ rstripL t) :: ts) rest num := by
  rw [restoreCurrent.eq_def]
  simp

theorem restoreCurrent_E (i : Nat) (mk t : List Char) (ts : List (List Char))
    (m : MarkIndex) (rest : List MarkIndex) (num : Nat) :
    restoreCurrent ⟨i, mk, Pos.E⟩ (t :: ts) (m :: rest) num =
      (rstripL t ++ mk) :: restoreAux ts rest (num + 1) := by
  rw [restoreCurrent.eq_def]
  simp

theorem restoreCurrent_A (i : Nat) (mk t : List Char) (ts : List (List Char))
    (m : MarkIndex) (rest : List MarkIndex) (num : Nat) :
    restoreCurrent ⟨i, mk, Pos.A⟩ (t :: ts) (m :: rest) num =
      mk :: restoreAux (rstripL t :: ts) rest (num + 1) := by
  rw [restoreCurrent.eq_def]
  simp

theorem restoreCurrent_I_nil (i : Nat) (mk t : List Char)
    (m : MarkIndex) (rest : List MarkIndex) (num : Nat) :
    restoreCurrent ⟨i, mk, Pos.I⟩ [t] (m :: rest) num =
      restoreAux [rstripL t ++ mk] rest num := by
  rw [restoreCurrent.eq_def]
  simp

theorem restoreCurrent_I_cons (i : Nat) (mk t t1 : List Char) (ts2 : List (List Char))
    (m : MarkIndex) (rest : List MarkIndex) (num : Nat) :
    restoreCurrent ⟨i, mk, Pos.I⟩ (t :: t1 :: ts2) (m :: rest) num =
      restoreAux ((rstripL t ++ mk ++ t1) :: ts2) rest num := by
  rw [restoreCurrent.eq_def]
  simp

end Phonemizer

namespace Phonemizer

theorem not_ws_of_not_run {marks : List Char} {c : Char} (h : runChar marks c = false) :
    c.isWhitespace = false := by
  rw [runChar] at h
  exact (Bool.or_eq_false_iff.mp h).1

theorem rstripL_cons_of_ne {c : Char} {l : List Char} (h : rstripL l ≠ []) :
    rstripL (c :: l) = c :: rstripL l := by
  rw [rstripL]
  cases hr : rstripL l with
  | nil => exact absurd hr h
  | cons r rs => rfl

theorem rstripL_cons_of_not_ws {c : Char} (l : List Char) (h : c.isWhitespace = false) :
    rstripL (c :: l) = c :: rstripL l := by
  rw [rstripL]
  cases hr : rstripL l with
  | nil => simp [h]
  | cons r rs => rfl

theorem rstripL_eq_nil_of_ws : ∀ {l : List Char}, (∀ c ∈ l, c.isWhitespace = true) →
    rstripL l = [] := by
  intro l
  induction l with
  | nil => intro _; rfl
  | cons c cs ih =>
    intro h
    rw [rstripL, ih (fun x hx => h x (by simp [hx]))]
    simp [h c (by simp)]

theorem rstripL_append_of_ne {l : List Char} (s : List Char) (h : rstripL l ≠ []) :
    rstripL (s ++ l) = s ++ rstripL l := by
  induction s with
  | nil => simp
  | cons c cs ih =>
    have hne : rstripL (cs ++ l) ≠ [] := by
      rw [ih]
      intro hx
      rcases List.append_eq_nil.mp hx with ⟨-, h2⟩
      exact h h2
    rw [List.cons_append, rstripL_cons_of_ne hne, ih, List.cons_append]

theorem rstripL_idem (l : List Char) : rstripL (rstripL l) = rstripL l := by
  induction l with
  | nil => rfl
  | cons c cs ih =>
    rw [rstripL]
    cases hr : rstripL cs with
    | nil =>
      by_cases hc : c.isWhitespace = true
      · simp only [hc, if_true]
        rfl
      · have hc' : c.isWhitespace = false := by simpa using hc
        simp only [hc', Bool.false_eq_true, if_false]
        rw [rstripL]
        simp [hc']
        rfl
    | cons r rs =>
      rw [hr] at ih
      rw [rstripL_cons_of_ne (by rw [ih]; simp), ih]

theorem dropWhile_head_false {p : Char → Bool} : ∀ (l : List Char) {c : Char} {cs : List Char},
    l.dropWhile p = c :: cs → p c = false := by
  intro l
  induction l with
  | nil => intro c cs h; cases h
  | cons a as ih =>
    intro c cs h
    rw [List.dropWhile_cons] at h
    by_cases ha : p a = true
    · rw [if_pos ha] at h; exact ih h
    · rw [if_neg ha] at h
      injection h with h1 h2
      subst h1
      simpa using ha

theorem lstripL_stripL (l : List Char) : lstripL (stripL l) = stripL l := by
  show lstripL (rstripL (lstripL l)) = rstripL (lstripL l)
  cases hl : lstripL l with
  | nil => rfl
  | cons c cs =>
    have hc : c.isWhitespace = false := dropWhile_head_false l hl
    rw [rstripL_cons_of_not_ws cs hc, lstripL, List.dropWhile_cons, if_neg (by simp [hc])]

theorem stripL_idem (l : List Char) : stripL (stripL l) = stripL l := by
  show rstripL (lstripL (stripL l)) = stripL l
  rw [lstripL_stripL l]
  show rstripL (rstripL (lstripL l)) = stripL l
  rw [rstripL_idem]
  rfl

theorem lstripL_of_headNR {marks : List Char} : ∀ {l : List Char}, headNR marks l →
    lstripL l = l := by
  intro l h
  cases l with
  | nil => rfl
  | cons c cs =>
    have hc : runChar marks c = false := h
    rw [lstripL, List.dropWhile_cons, if_neg (by simp [not_ws_of_not_run hc])]

theorem dropWhile_append_ws {r : List Char} (l : List Char)
    (h : ∀ c ∈ r, c.isWhitespace = true) :
    (r ++ l).dropWhile Char.isWhitespace = l.dropWhile Char.isWhitespace := by
  induction r with
  | nil => simp
  | cons c cs ih =>
    rw [List.cons_append, List.dropWhile_cons, if_pos (by simp [h c (by simp)])]
    exact ih (fun x hx => h x (by simp [hx]))

theorem ws_of_keep {marks : List Char} {r : List Char}
    (hrun : ∀ c ∈ r, runChar marks c = true) (hmk : ∀ c ∈ r, markChar marks c = false) :
    ∀ c ∈ r, c.isWhitespace = true := by
  intro c hc
  have h1 := hrun c hc
  have h2 := hmk c hc
  rw [runChar, h2] at h1
  simpa using h1

theorem flushRun_of_no_mark {marks r : List Char} (hmk : ∀ c ∈ r, markChar marks c = false) :
    flushRun marks r = r := by
  have hany : r.any (markChar marks) = false :=
    List.any_eq_false.mpr (fun c hc => by simp [hmk c hc])
  by_cases hr : r = []
  · simp [flushRun, hr]
  · simp [flushRun, hr, hany]

theorem flushRun_space (marks : List Char) : flushRun marks [' '] = [' '] := by
  rw [flushRun, if_neg (by simp)]
  split <;> rfl

theorem subGo_append_run {marks : List Char} (r : List Char) :
    ∀ (rest run : List Char), (∀ c ∈ r, runChar marks c = true) →
    subGo marks run (r ++ rest) = subGo marks (run ++ r) rest := by
  induction r with
  | nil => intro rest run _; simp
  | cons c r' ih =>
    intro rest run hr
    have hc : runChar marks c = true := hr c (by simp)
    show subGo marks run (c :: (r' ++ rest)) = _
    rw [subGo, if_pos hc, ih rest (run ++ [c]) (fun x hx => hr x (by simp [hx]))]
    simp

theorem subMarks_cons_nonrun {marks : List Char} {c : Char} (l : List Char)
    (hc : runChar marks c = false) : subMarks marks (c :: l) = c :: subMarks marks l := by
  rw [subMarks, subGo, if_neg (by simp [hc])]
  rfl

theorem subOut_subGo {marks : List Char} : ∀ (l run : List Char),
    (∀ c ∈ run, runChar marks c = true) → SubOut marks (subGo marks run l) := by
  intro l
  induction l with
  | nil =>
    intro run hrun
    rw [subGo, flushRun]
    split
    · exact SubOut.nil
    · rename_i hne
      split
      · exact SubOut.space [] trivial SubOut.nil
      · rename_i hany
        have hmk : ∀ c ∈ run, markChar marks c = false := by
          intro c hc
          by_cases hm : markChar marks c = true
          · exact absurd (List.any_eq_true.mpr ⟨c, hc, hm⟩) hany
          · simpa using hm
        have hk := SubOut.keep run [] hne hrun hmk trivial SubOut.nil
        simpa using hk
  | cons c cs ih =>
    intro run hrun
    by_cases hc : runChar marks c = true
    · rw [subGo, if_pos hc]
      refine ih (run ++ [c]) ?_
      intro x hx
      rcases List.mem_append.mp hx with hx | hx
      · exact hrun x hx
      · simp only [List.mem_singleton] at hx
        subst hx
        exact hc
    · have hc' : runChar marks c = false := by simpa using hc
      rw [subGo, if_neg (by simp [hc'])]
      have hinner : SubOut marks (subGo marks [] cs) := ih [] (by simp)
      have hcons : SubOut marks (c :: subGo marks [] cs) := SubOut.nonrun _ _ hc' hinner
      rw [flushRun]
      split
      · simpa using hcons
      · rename_i hne
        split
        · show SubOut marks (' ' :: c :: subGo marks [] cs)
          exact SubOut.space _ hc' hcons
        · rename_i hany
          have hmk : ∀ x ∈ run, markChar marks x = false := by
            intro x hx
            by_cases hm : markChar marks x = true
            · exact absurd (List.any_eq_true.mpr ⟨x, hx, hm⟩) hany
            · simpa using hm
          exact SubOut.keep run _ hne hrun hmk hc' hcons

theorem subOut_subMarks (marks l : List Char) : SubOut marks (subMarks marks l) :=
  subOut_subGo l [] (by simp)

theorem lstripL_subOut {marks y : List Char} (h : SubOut marks y) :
    SubOut marks (lstripL y) := by
  cases h with
  | nil => exact SubOut.nil
  | nonrun c l hc hl =>
    rw [lstripL, List.dropWhile_cons, if_neg (by simp [not_ws_of_not_run hc])]
    exact SubOut.nonrun c l hc hl
  | space l hh hl =>
    rw [lstripL, List.dropWhile_cons, if_pos (by simp)]
    rw [show l.dropWhile Char.isWhitespace = lstripL l from rfl, lstripL_of_headNR hh]
    exact hl
  | keep r l hne hrun hmk hh hl =>
    rw [lstripL, dropWhile_append_ws l (ws_of_keep hrun hmk)]
    rw [show l.dropWhile Char.isWhitespace = lstripL l from rfl, lstripL_of_headNR hh]
    exact hl

theorem subMarks_rstripL {marks : List Char} : ∀ {z : List Char}, SubOut marks z →
    subMarks marks (rstripL z) = rstripL z := by
  intro z h
  induction h with
  | nil => rfl
  | nonrun c l hc hl ih =>
    rw [rstripL_cons_of_not_ws l (not_ws_of_not_run hc), subMarks_cons_nonrun _ hc, ih]
  | space l hh hl ih =>
    cases l with
    | nil =>
      rw [show rstripL [' '] = [] from by decide]
      rfl
    | cons d l' =>
      have hd : runChar marks d = false := hh
      have hdw : d.isWhitespace = false := not_ws_of_not_run hd
      have h1 : rstripL (d :: l') = d :: rstripL l' := rstripL_cons_of_not_ws _ hdw
      have h2 : rstripL (' ' :: d :: l') = ' ' :: rstripL (d :: l') :=
        rstripL_cons_of_ne (by rw [h1]; simp)
      rw [h1] at ih
      rw [subMarks_cons_nonrun _ hd] at ih
      have ih' : subMarks marks (rstripL l') = rstripL l' := by
        injection ih with ih1 ih2
      rw [h2, h1]
      show subGo marks [] (' ' :: d :: rstripL l') = ' ' :: d :: rstripL l'
      rw [subGo, if_pos (by rw [runChar]; simp [show (' ').isWhitespace = true from by decide])]
      rw [subGo, if_neg (by simp [hd])]
      simp only [List.nil_append]
      rw [flushRun_space]
      show ' ' :: d :: subGo marks [] (rstripL l') = ' ' :: d :: rstripL l'
      rw [show subGo marks [] (rstripL l') = subMarks marks (rstripL l') from rfl, ih']
  | keep r l hne hrun hmk hh hl ih =>
    cases l with
    | nil =>
      rw [List.append_nil, rstripL_eq_nil_of_ws (ws_of_keep hrun hmk)]
      rfl
    | cons d l' =>
      have hd : runChar marks d = false := hh
      have hdw : d.isWhitespace = false := not_ws_of_not_run hd
      have h1 : rstripL (d :: l') = d :: rstripL l' := rstripL_cons_of_not_ws _ hdw
      have h2 : rstripL (r ++ d :: l') = r ++ rstripL (d :: l') :=
        rstripL_append_of_ne r (by rw [h1]; simp)
      rw [h1] at ih
      rw [subMarks_cons_nonrun _ hd] at ih
      have ih' : subMarks marks (rstripL l') = rstripL l' := by
        injection ih with ih1 ih2
      rw [h2, h1]
      show subGo marks [] (r ++ d :: rstripL l') = r ++ d :: rstripL l'
      rw [subGo_append_run r (d :: rstripL l') [] hrun]
      show subGo marks r (d :: rstripL l') = r ++ d :: rstripL l'
      rw [subGo, if_neg (by simp [hd]), flushRun_of_no_mark hmk]
      show r ++ d :: subGo marks [] (rstripL l') = r ++ d :: rstripL l'
      rw [show subGo marks [] (rstripL l') = subMarks marks (rstripL l') from rfl, ih']

theorem subMarks_stripL {marks y : List Char} (h : SubOut marks y) :
    subMarks marks (stripL y) = stripL y := by
  show subMarks marks (rstripL (lstripL y)) = rstripL (lstripL y)
  exact subMarks_rstripL (lstripL_subOut h)

theorem removeLine_idem (marks l : List Char) :
    removeLine marks (removeLine marks l) = removeLine marks l := by
  show stripL (subMarks marks (stripL (subMarks marks l))) = stripL (subMarks marks l)
  rw [subMarks_stripL (subOut_subMarks marks l), stripL_idem]

end Phonemizer

namespace Phonemizer

theorem preserveLine_no_marks {marks line : List Char}
    (hno : ∀ c ∈ line, markChar marks c = false)
    (hs1 : '§' ∉ line) (hh1 : '#' ∉ line)
    (hs2 : markChar marks '§' = false) (hh2 : markChar marks '#' = false) (num : Nat) :
    preserveLine marks line num = ([line], []) := by
  have hesc : ∀ c ∈ escapeLine line, markChar marks c = false := by
    intro c hc
    rcases mem_escapeDot _ c hc with hc2 | rfl
    · rcases mem_escapeComma _ c hc2 with hc3 | rfl
      · exact hno c hc3
      · exact hs2
    · exact hh2
  have hdet : detect marks (escapeLine line) = [] := detect_eq_nil_iff.mpr hesc
  simp only [preserveLine]
  rw [hdet]
  rw [unescape_escapeLine hs1 hh1]

theorem preserveAux_cons (marks : List Char) (l : List Char) (ls : List (List Char)) (num : Nat) :
    preserveAux marks (l :: ls) num =
      ((preserveLine marks l num).1 ++ (preserveAux marks ls (num + 1)).1,
       (preserveLine marks l num).2 ++ (preserveAux marks ls (num + 1)).2) := by
  cases hpl : preserveLine marks l num with
  | mk cs ms =>
    cases hpa : preserveAux marks ls (num + 1) with
    | mk cs2 ms2 =>
      rw [preserveAux, hpl, hpa]

theorem preserveAux_nil (marks : List Char) (num : Nat) :
    preserveAux marks [] num = ([], []) := rfl

theorem preserveLine_nil_line (marks : List Char) (num : Nat) :
    preserveLine marks [] num = ([[]], []) := by
  have hdet : detect marks (escapeLine []) = [] := by
    show emitRun marks [] = []
    exact emitRun_eq_nil_iff.mpr (Or.inl rfl)
  simp only [preserveLine]
  rw [hdet]
  rfl

theorem preserveAux_append_empty (marks : List Char) : ∀ (text : List (List Char)) (num : Nat),
    preserveAux marks (text ++ [[]]) num =
      ((preserveAux marks text num).1 ++ [[]], (preserveAux marks text num).2) := by
  intro text
  induction text with
  | nil =>
    intro num
    rw [List.nil_append, preserveAux_cons, preserveLine_nil_line]
    rfl
  | cons l ls ih =>
    intro num
    rw [List.cons_append, preserveAux_cons, preserveAux_cons, ih (num + 1)]
    simp [List.append_assoc]

theorem preserve_append_empty (marks : List Char) (text : List (List Char)) :
    preserve marks (text ++ [[]]) = preserve marks text := by
  simp only [preserve, preserveAux_append_empty, List.filter_append]
  simp

theorem preserve_chunk_ne_nil {marks : List Char} {text : List (List Char)} {c : List Char}
    (h : c ∈ (preserve marks text).1) : c ≠ [] := by
  simp only [preserve] at h
  have hf := List.of_mem_filter h
  intro hc
  subst hc
  simp at hf

theorem preserve_single_no_marks {marks line : List Char}
    (hno : ∀ c ∈ line, markChar marks c = false)
    (hs1 : '§' ∉ line) (hh1 : '#' ∉ line)
    (hs2 : markChar marks '§' = false) (hh2 : markChar marks '#' = false)
    (hne : line ≠ []) :
    preserve marks [line] = ([line], []) := by
  rw [preserve, preserveAux_cons, preserveLine_no_marks hno hs1 hh1 hs2 hh2 0,
    preserveAux_nil]
  have hemp : line.isEmpty = false := by
    cases line with
    | nil => exact absurd rfl hne
    | cons a as => rfl
  simp [hemp]

end Phonemizer

namespace Phonemizer

theorem markPosition_eq_B_iff {line g : List Char} {total i : Nat} :
    markPosition line total i g = Pos.B ↔ (i = 0 ∧ startsWithL g line = true) := by
  rw [markPosition]
  by_cases h1 : i = 0 ∧ startsWithL g line = true
  · rw [if_pos h1]
    exact ⟨fun _ => h1, fun _ => rfl⟩
  · rw [if_neg h1]
    by_cases h2 : i = total - 1 ∧ endsWithL g line = true
    · rw [if_pos h2]
      exact ⟨fun h => absurd h (by decide), fun hx => absurd hx h1⟩
    · rw [if_neg h2]
      exact ⟨fun h => absurd h (by decide), fun hx => absurd hx h1⟩

theorem markPosition_eq_E_iff {line g : List Char} {total i : Nat} :
    markPosition line total i g = Pos.E ↔
      ¬(i = 0 ∧ startsWithL g line = true) ∧ (i = total - 1 ∧ endsWithL g line = true) := by
  rw [markPosition]
  by_cases h1 : i = 0 ∧ startsWithL g line = true
  · rw [if_pos h1]
    exact ⟨fun h => absurd h (by decide), fun hx => absurd h1 hx.1⟩
  · rw [if_neg h1]
    by_cases h2 : i = total - 1 ∧ endsWithL g line = true
    · rw [if_pos h2]
      exact ⟨fun _ => ⟨h1, h2⟩, fun _ => rfl⟩
    · rw [if_neg h2]
      exact ⟨fun h => absurd h (by decide), fun hx => absurd hx.2 h2⟩

theorem markPosition_eq_I_iff {line g : List Char} {total i : Nat} :
    markPosition line total i g = Pos.I ↔
      ¬(i = 0 ∧ startsWithL g line = true) ∧
      ¬(i = total - 1 ∧ endsWithL g line = true) := by
  rw [markPosition]
  by_cases h1 : i = 0 ∧ startsWithL g line = true
  · rw [if_pos h1]
    exact ⟨fun h => absurd h (by decide), fun hx => absurd h1 hx.1⟩
  · rw [if_neg h1]
    by_cases h2 : i = total - 1 ∧ endsWithL g line = true
    · rw [if_pos h2]
      exact ⟨fun h => absurd h (by decide), fun hx => absurd h2 hx.2⟩
    · rw [if_neg h2]
      exact ⟨fun _ => ⟨h1, h2⟩, fun _ => rfl⟩

/-- C2: in `preserve`, for a (digit-escaped) line whose mark matches are not a
single full-span match, the classification loop tags the `i`-th match `Begin`
exactly when it is the first match and the line starts with its text, `End`
exactly when it is the last match and the line ends with its text, and
`Middle` in every other case. -/
theorem c2_position_classification (marks line : List Char) (num i : Nat) (g : List Char)
    (hfull : detect marks line ≠ [line])
    (hi : (detect marks line)[i]? = some g) :
    ((classifyMarks line num (detect marks line).length 0 (detect marks line))[i]? =
        some ⟨num, g, Pos.B⟩ ↔ (i = 0 ∧ startsWithL g line = true)) ∧
    ((classifyMarks line num (detect marks line).length 0 (detect marks line))[i]? =
        some ⟨num, g, Pos.E⟩ ↔
        (i = (detect marks line).length - 1 ∧ endsWithL g line = true)) ∧
    ((classifyMarks line num (detect marks line).length 0 (detect marks line))[i]? =
        some ⟨num, g, Pos.I⟩ ↔
        (¬(i = 0 ∧ startsWithL g line = true) ∧
         ¬(i = (detect marks line).length - 1 ∧ endsWithL g line = true))) := by
  have hget := classifyMarks_getElem line num (detect marks line).length (detect marks line) 0 i
  rw [hi] at hget
  simp only [Option.map_some', Nat.zero_add] at hget
  have hincompat : ¬((i = 0 ∧ startsWithL g line = true) ∧
      (i = (detect marks line).length - 1 ∧ endsWithL g line = true)) := by
    rintro ⟨⟨hzero, hsw⟩, hlast, hew⟩
    subst hzero
    have hlt : 0 < (detect marks line).length := by
      cases hlen : detect marks line with
      | nil => rw [hlen] at hi; simp at hi
      | cons a as => simp [hlen]
    have hone : (detect marks line).length = 1 := by omega
    obtain ⟨a, ha⟩ := List.length_eq_one.mp hone
    have hag : a = g := by
      rw [ha] at hi
      simpa using hi
    have hdet2 : detect marks line = [g] := by rw [ha, hag]
    obtain ⟨t, hline⟩ := (startsWithL_iff g line).mp hsw
    obtain ⟨u, hline2⟩ := (endsWithL_iff g line).mp hew
    have hdet3 : detect marks (g ++ t) = [g] := by rw [← hline]; exact hdet2
    have hsuf : g ++ t = u ++ g := by rw [← hline, hline2]
    have ht : t = [] := detect_singleton_eq hdet3 hsuf
    subst ht
    rw [List.append_nil] at hline
    exact hfull (by rw [hdet2, hline])
  rw [hget]
  simp only [Option.some.injEq, MarkIndex.mk.injEq, true_and]
  refine ⟨?_, ?_, ?_⟩
  · exact markPosition_eq_B_iff
  · rw [markPosition_eq_E_iff]
    constructor
    · rintro ⟨-, h2⟩; exact h2
    · intro h2
      exact ⟨fun h1 => hincompat ⟨h1, h2⟩, h2⟩
  · exact markPosition_eq_I_iff

theorem c2_position_classification_witness :
    (detect [',', '!'] (strL "hello, my world!") ≠ [strL "hello, my world!"] ∧
     (detect [',', '!'] (strL "hello, my world!"))[1]? = some (strL "!")) ∧
    ((classifyMarks (strL "hello, my world!") 0
        (detect [',', '!'] (strL "hello, my world!")).length 0
        (detect [',', '!'] (strL "hello, my world!")))[1]? =
        some ⟨0, strL "!", Pos.B⟩ ↔
        (1 = 0 ∧ startsWithL (strL "!") (strL "hello, my world!") = true)) ∧
    ((classifyMarks (strL "hello, my world!") 0
        (detect [',', '!'] (strL "hello, my world!")).length 0
        (detect [',', '!'] (strL "hello, my world!")))[1]? =
        some ⟨0, strL "!", Pos.E⟩ ↔
        (1 = (detect [',', '!'] (strL "hello, my world!")).length - 1 ∧
          endsWithL (strL "!") (strL "hello, my world!") = true)) ∧
    ((classifyMarks (strL "hello, my world!") 0
        (detect [',', '!'] (strL "hello, my world!")).length 0
        (detect [',', '!'] (strL "hello, my world!")))[1]? =
        some ⟨0, strL "!", Pos.I⟩ ↔
        (¬(1 = 0 ∧ startsWithL (strL "!") (strL "hello, my world!") = true) ∧
         ¬(1 = (detect [',', '!'] (strL "hello, my world!")).length - 1 ∧
            endsWithL (strL "!") (strL "hello, my world!") = true))) :=
  ⟨⟨by decide, by decide⟩,
    c2_position_classification [',', '!'] (strL "hello, my world!") 0 1 (strL "!")
      (by decide) (by decide)⟩

end Phonemizer

namespace Phonemizer

/-- C4: for a line on which mark detection (run on the digit-escaped line)
finds exactly one match spanning the entire line, `preserve` emits zero
chunks and exactly one record carrying the whole line as mark text with
position Alone (provided the placeholder characters are not configured as
marks, the escaped line is the line itself). -/
theorem c4_alone_line (marks line : List Char) (num : Nat)
    (hs : markChar marks '§' = false) (hh : markChar marks '#' = false)
    (hdet : detect marks (escapeLine line) = [escapeLine line]) :
    preserveLine marks line num = ([], [⟨num, line, Pos.A⟩]) ∧
      preserve marks [line] = ([], [⟨0, line, Pos.A⟩]) := by
  have hrun : ∀ c ∈ escapeLine line, runChar marks c = true :=
    (@mem_detect marks (escapeLine line) (escapeLine line)
      (by rw [hdet]; simp)).2.1
  have hesc : escapeLine line = line := escapeLine_eq_self_of_runChar hrun hs hh
  have key : ∀ n, preserveLine marks line n = ([], [⟨n, line, Pos.A⟩]) := by
    intro n
    simp only [preserveLine]
    rw [hdet, hesc]
    simp
  refine ⟨key num, ?_⟩
  rw [preserve, preserveAux_cons, key 0, preserveAux_nil]
  rfl

theorem c4_alone_line_witness :
    (markChar ['!'] '§' = false ∧ markChar ['!'] '#' = false ∧
      detect ['!'] (escapeLine (strL "!!!")) = [escapeLine (strL "!!!")]) ∧
    (preserveLine ['!'] (strL "!!!") 0 = ([], [⟨0, strL "!!!", Pos.A⟩]) ∧
      preserve ['!'] [strL "!!!"] = ([], [⟨0, strL "!!!", Pos.A⟩])) :=
  ⟨⟨by decide, by decide, by decide⟩,
    c4_alone_line ['!'] (strL "!!!") 0 (by decide) (by decide) (by decide)⟩

/-- C1 (counterexample): the round trip is not the identity for every line
without configured marks.  The empty line yields no chunk at all, so
`restore` returns zero lines; and a line containing the placeholder
character '#' (no configured mark, with the default marks) comes back with
'#' turned into '.', which differs even after trimming. -/
theorem c1_round_trip_counterexample :
    restore (preserve defaultMarks [[]]).1 (preserve defaultMarks [[]]).2 = [] ∧
    restore (preserve defaultMarks [strL "#"]).1 (preserve defaultMarks [strL "#"]).2 =
      [strL "."] ∧
    strL "." ≠ strL "#" ∧ stripL (strL ".") ≠ stripL (strL "#") := by
  have h1 : preserve defaultMarks [[]] = ([], []) := by decide
  have h2 : preserve defaultMarks [strL "#"] = ([strL "."], []) := by decide
  refine ⟨?_, ?_, by decide, by decide⟩
  · rw [h1]
    exact restoreAux_nil_marks [] 0
  · rw [h2]
    exact restoreAux_nil_marks [strL "."] 0

/-- C1 (amended): for every non-empty line containing no configured mark
character and neither of the placeholder characters '§' and '#' (which must
also not be configured as marks), `restore` applied to the result of
`preserve([line])` reproduces `[line]` exactly. -/
theorem c1_round_trip_amended (marks line : List Char)
    (hne : line ≠ [])
    (hno : ∀ c ∈ line, markChar marks c = false)
    (hs1 : '§' ∉ line) (hh1 : '#' ∉ line)
    (hs2 : markChar marks '§' = false) (hh2 : markChar marks '#' = false) :
    restore (preserve marks [line]).1 (preserve marks [line]).2 = [line] := by
  rw [preserve_single_no_marks hno hs1 hh1 hs2 hh2 hne]
  exact restoreAux_nil_marks [line] 0

theorem c1_round_trip_amended_witness :
    (strL "hi 3,4" ≠ [] ∧ (∀ c ∈ strL "hi 3,4", markChar ['!'] c = false) ∧
      '§' ∉ strL "hi 3,4" ∧ '#' ∉ strL "hi 3,4" ∧
      markChar ['!'] '§' = false ∧ markChar ['!'] '#' = false) ∧
    restore (preserve ['!'] [strL "hi 3,4"]).1 (preserve ['!'] [strL "hi 3,4"]).2 =
      [strL "hi 3,4"] :=
  ⟨⟨by decide, by decide, by decide, by decide, by decide, by decide⟩,
    c1_round_trip_amended ['!'] (strL "hi 3,4") (by decide) (by decide) (by decide)
      (by decide) (by decide) (by decide)⟩

/-- C5 (counterexample): a configured mark character between two digits IS
classified as a punctuation mark when it is not ',' or '.': with marks
`{';'}`, the line "3;4" yields a Middle mark record for ";". -/
theorem c5_digit_protection_counterexample :
    preserve [';'] [strL "3;4"] = ([strL "3", strL "4"], [⟨0, strL ";", Pos.I⟩]) := by
  decide

/-- C5 (amended): the digit protection covers only ',' and '.' (replaced by
the fixed placeholders '§' and '#'), and the substitution is reversed on
every chunk before it is returned: no returned chunk contains a placeholder
character.  For the specification's example "3,14 is pi." with the default
marks, detection on the escaped line finds only the trailing "." and the
chunk comes back with the comma restored. -/
theorem sect_not_mem_unescSection (l : List Char) : '§' ∉ unescSection l := by
  intro hmem
  rw [unescSection] at hmem
  simp only [List.mem_map] at hmem
  obtain ⟨z, -, hz⟩ := hmem
  by_cases h : z = '§'
  · rw [if_pos h] at hz
    exact absurd hz (by decide)
  · rw [if_neg h] at hz
    exact h hz

theorem hash_not_mem_unescHash (l : List Char) : '#' ∉ unescHash l := by
  intro hmem
  rw [unescHash] at hmem
  simp only [List.mem_map] at hmem
  obtain ⟨z, -, hz⟩ := hmem
  by_cases h : z = '#'
  · rw [if_pos h] at hz
    exact absurd hz (by decide)
  · rw [if_neg h] at hz
    exact h hz

theorem not_mem_unescHash_of_ne {x : Char} {l : List Char} (hx : x ∉ l) (hdot : x ≠ '.') :
    x ∉ unescHash l := by
  intro hmem
  rw [unescHash] at hmem
  simp only [List.mem_map] at hmem
  obtain ⟨z, hzl, hz⟩ := hmem
  by_cases h : z = '#'
  · rw [if_pos h] at hz
    exact hdot hz.symm
  · rw [if_neg h] at hz
    exact hx (hz ▸ hzl)

theorem placeholder_not_mem_unescape (y : List Char) :
    '§' ∉ unescape y ∧ '#' ∉ unescape y :=
  ⟨not_mem_unescHash_of_ne (sect_not_mem_unescSection y) (by decide),
    hash_not_mem_unescHash (unescSection y)⟩

/-- C5 (amended): the digit protection covers only ',' and '.' (replaced by
the fixed placeholders '§' and '#'), and the substitution is reversed on
every chunk before it is returned: no returned chunk contains a placeholder
character.  For the specification's example "3,14 is pi." with the default
marks, detection on the escaped line finds only the trailing "." and the
chunk comes back with the comma restored. -/
theorem c5_digit_protection_amended (marks line : List Char) (num : Nat) (c : List Char)
    (hc : c ∈ (preserveLine marks line num).1) :
    ('§' ∉ c ∧ '#' ∉ c) ∧
    (detect defaultMarks (escapeLine (strL "3,14 is pi.")) = [strL "."] ∧
      preserve defaultMarks [strL "3,14 is pi."] =
        ([strL "3,14 is pi"], [⟨0, strL ".", Pos.E⟩])) := by
  refine ⟨?_, by decide, by decide⟩
  have hun : ∃ y, c = unescape y := by
    simp only [preserveLine] at hc
    split at hc
    · simp only [List.mem_singleton] at hc
      exact ⟨escapeLine line, hc⟩
    · split at hc
      · simp at hc
      · simp only [List.mem_map] at hc
        obtain ⟨y, -, hy⟩ := hc
        exact ⟨y, hy.symm⟩
  obtain ⟨y, rfl⟩ := hun
  exact placeholder_not_mem_unescape y

end Phonemizer

namespace Phonemizer

theorem c5_digit_protection_amended_witness :
    (strL "3" ∈ (preserveLine [';'] (strL "3;4") 0).1) ∧
    (('§' ∉ strL "3" ∧ '#' ∉ strL "3") ∧
     (detect defaultMarks (escapeLine (strL "3,14 is pi.")) = [strL "."] ∧
      preserve defaultMarks [strL "3,14 is pi."] =
        ([strL "3,14 is pi"], [⟨0, strL ".", Pos.E⟩]))) :=
  ⟨by decide, c5_digit_protection_amended [';'] (strL "3;4") 0 (strL "3") (by decide)⟩

/-- C3: in `restore`, whenever the next mark's line index differs from the
output-line counter `num`, the current chunk is emitted unchanged and `num`
advances by one with the mark kept pending; in particular
`preserve(["no marks here", "wow!"])` gives one End mark at line index 1, and
restoring the processed chunks `["NO MARKS HERE", "WOW"]` with it yields
`["NO MARKS HERE", "WOW!"]`. -/
theorem c3_restore_skip_line (t : List Char) (ts : List (List Char)) (m : MarkIndex)
    (ms : List MarkIndex) (num : Nat) (h : m.index ≠ num) :
    restoreAux (t :: ts) (m :: ms) num = t :: restoreAux ts (m :: ms) (num + 1) ∧
    restore [strL "NO MARKS HERE", strL "WOW"]
        (preserve defaultMarks [strL "no marks here", strL "wow!"]).2 =
      [strL "NO MARKS HERE", strL "WOW!"] := by
  constructor
  · rw [restoreAux_cons, if_neg h]
  · have hm : (preserve defaultMarks [strL "no marks here", strL "wow!"]).2 =
        [⟨1, strL "!", Pos.E⟩] := by decide
    rw [hm, restore]
    rw [restoreAux_cons, if_neg (by decide)]
    rw [restoreAux_cons, if_pos (by decide : (1 : Nat) = 1)]
    rw [restoreCurrent_E, restoreAux_nil_marks]
    decide

theorem c3_restore_skip_line_witness :
    ((⟨1, strL "!", Pos.E⟩ : MarkIndex).index ≠ 0) ∧
    (restoreAux [strL "x"] [⟨1, strL "!", Pos.E⟩] 0 =
        strL "x" :: restoreAux [] [⟨1, strL "!", Pos.E⟩] 1 ∧
      restore [strL "NO MARKS HERE", strL "WOW"]
          (preserve defaultMarks [strL "no marks here", strL "wow!"]).2 =
        [strL "NO MARKS HERE", strL "WOW!"]) :=
  ⟨by decide, c3_restore_skip_line (strL "x") [] ⟨1, strL "!", Pos.E⟩ [] 0 (by decide)⟩

/-- C6: in `restore`, once the marks are exhausted the remaining chunks are
returned unchanged; once the chunks are exhausted but marks remain, all
remaining mark texts are joined with no separator into a single final line;
in particular `preserve(["..."])` followed by `restore([], marks)` yields
`["..."]`, the concatenation of the single mark's text. -/
theorem c6_restore_exhaustion (text : List (List Char)) (m : MarkIndex)
    (ms : List MarkIndex) (num num2 : Nat) :
    restoreAux text [] num = text ∧
    restoreAux [] (m :: ms) num2 = [((m :: ms).map (fun x => x.mark)).flatten] ∧
    restore [] (preserve defaultMarks [strL "..."]).2 = [strL "..."] := by
  refine ⟨restoreAux_nil_marks text num, restoreAux_nil_text m ms num2, ?_⟩
  have hm : (preserve defaultMarks [strL "..."]).2 = [⟨0, strL "...", Pos.A⟩] := by decide
  rw [hm, restore, restoreAux_nil_text]
  decide

/-- C7: every chunk returned by `preserve` is a non-empty string (empty
chunks are dropped and never consume a restore slot), and an empty input
line contributes no chunks and no mark records to the output. -/
theorem c7_chunks_nonempty (marks : List Char) (text : List (List Char)) (c : List Char)
    (hc : c ∈ (preserve marks text).1) :
    c ≠ [] ∧ preserve marks (text ++ [[]]) = preserve marks text ∧
      ∀ n, preserveLine marks [] n = ([[]], []) :=
  ⟨preserve_chunk_ne_nil hc, preserve_append_empty marks text,
    fun n => preserveLine_nil_line marks n⟩

theorem c7_chunks_nonempty_witness :
    (strL "a" ∈ (preserve ['!'] [strL "a"]).1) ∧
    (strL "a" ≠ [] ∧ preserve ['!'] ([strL "a"] ++ [[]]) = preserve ['!'] [strL "a"] ∧
      ∀ n, preserveLine ['!'] [] n = ([[]], [])) :=
  ⟨by decide, c7_chunks_nonempty ['!'] [strL "a"] (strL "a") (by decide)⟩

/-- C8: `remove` is idempotent, on a single line and on a list of lines:
every maximal mark run is replaced by a single space and the line is trimmed,
and doing it twice equals doing it once. -/
theorem c8_remove_idempotent (marks l : List Char) (text : List (List Char)) :
    removeLine marks (removeLine marks l) = removeLine marks l ∧
    removeList marks (removeList marks text) = removeList marks text := by
  refine ⟨removeLine_idem marks l, ?_⟩
  rw [removeList, removeList, List.map_map]
  apply List.map_congr_left
  intro x _
  exact removeLine_idem marks x

/-- C9: configuration fails with the invalid-configuration error exactly when
the supplied marks value is not a string (the code raises `ValueError`, which
the specification names `InvalidConfiguration`), and `preserve`, `restore`
and `remove` are total on every textual input, including empty strings,
mark-only lines and mark-free lines. -/
theorem c9_configuration_and_totality (v : PyValue) (marks : List Char)
    (text chunks : List (List Char)) (mks : List MarkIndex) :
    ((setMarks v = Except.error ConfigError.invalidConfiguration) ↔ v = PyValue.nonStr) ∧
    (∃ p, preserve marks text = p) ∧
    (∃ r, restore chunks mks = r) ∧
    (∃ r, removeList marks text = r) ∧
    preserve defaultMarks [[]] = ([], []) ∧
    preserve defaultMarks [strL "..."] = ([], [⟨0, strL "...", Pos.A⟩]) ∧
    removeLine defaultMarks [] = [] ∧
    restore [] [] = [] := by
  refine ⟨?_, ⟨_, rfl⟩, ⟨_, rfl⟩, ⟨_, rfl⟩, by decide, by decide, by decide, ?_⟩
  · constructor
    · intro h
      cases v with
      | str s => simp [setMarks] at h
      | nonStr => rfl
    · intro h
      subst h
      rfl
  · rw [restore]
    exact restoreAux_nil_marks [] 0

/-- C10 (implicit): `_restore_current` right-strips the chunk at the front of
the text before the position branch, for all four positions; in particular
when an Alone mark is placed while chunks remain, the chunk following the
emitted Alone line loses its trailing whitespace even though no mark is
attached to it. -/
theorem c10_rstrip_before_position_branch (mk t t1 : List Char)
    (ts ts2 : List (List Char)) (rest : List MarkIndex) (num : Nat) :
    (restoreAux (t :: ts) (⟨num, mk, Pos.A⟩ :: rest) num =
      mk :: restoreAux (rstripL t :: ts) rest (num + 1)) ∧
    (restoreAux (t :: ts) (⟨num, mk, Pos.B⟩ :: rest) num =
      restoreAux ((mk ++ rstripL t) :: ts) rest num) ∧
    (restoreAux (t :: ts) (⟨num, mk, Pos.E⟩ :: rest) num =
      (rstripL t ++ mk) :: restoreAux ts rest (num + 1)) ∧
    (restoreAux [t] (⟨num, mk, Pos.I⟩ :: rest) num =
      restoreAux [rstripL t ++ mk] rest num) ∧
    (restoreAux (t :: t1 :: ts2) (⟨num, mk, Pos.I⟩ :: rest) num =
      restoreAux ((rstripL t ++ mk ++ t1) :: ts2) rest num) ∧
    restore [strL "hi  "] [⟨0, strL "!", Pos.A⟩] = [strL "!", strL "hi"] := by
  refine ⟨?_, ?_, ?_, ?_, ?_, ?_⟩
  · rw [restoreAux_cons, if_pos rfl, restoreCurrent_A]
  · rw [restoreAux_cons, if_pos rfl, restoreCurrent_B]
  · rw [restoreAux_cons, if_pos rfl, restoreCurrent_E]
  · rw [restoreAux_cons, if_pos rfl, restoreCurrent_I_nil]
  · rw [restoreAux_cons, if_pos rfl, restoreCurrent_I_cons]
  · rw [restore, restoreAux_cons, if_pos (by decide : (0 : Nat) = 0), restoreCurrent_A,
      restoreAux_nil_marks]
    decide

end Phonemizer
